import Mathlib

/-!
Shallow embedding of the casino games repository (blackjack.py, roulette.py)
and proofs of the specified properties.  Python integers are modelled as Nat
(all reachable bankrolls, wagers and payouts are non-negative) except where a
claim quantifies over arbitrary integers; `int(x * 2.5)` for non-negative `x`
is floor, modelled as `5 * x / 2` in Nat division; `random.shuffle` is
modelled as an arbitrary function parameter constrained to be a permutation
where a claim needs it.
-/

namespace Blackjack

/-- The 13 ranks of `RANKS` in blackjack.py. -/
inductive Rank
  | r2 | r3 | r4 | r5 | r6 | r7 | r8 | r9 | r10 | J | Q | K | A
deriving DecidableEq

/-- A card: one of 4 suits paired with a rank (class `Card`). -/
structure Card where
  suit : Fin 4
  rank : Rank
deriving DecidableEq

/-- `Card.value` from blackjack.py: face cards 10, ace 11 (nominal), numerals
their numeric value. -/
def Card.value (c : Card) : Nat :=
  match c.rank with
  | .J | .Q | .K => 10
  | .A => 11
  | .r2 => 2
  | .r3 => 3
  | .r4 => 4
  | .r5 => 5
  | .r6 => 6
  | .r7 => 7
  | .r8 => 8
  | .r9 => 9
  | .r10 => 10

/-- The accumulation loop of `Hand.calculate_value`: running total (aces as
11) together with the number of aces seen. -/
def tally (cs : List Card) : Nat × Nat :=
  cs.foldl
    (fun p c =>
      if c.rank = Rank.A then (p.1 + 11, p.2 + 1) else (p.1 + c.value, p.2))
    (0, 0)

/-- The ace-adjustment loop of `Hand.calculate_value`: while the total
exceeds 21 and an un-downgraded ace remains, subtract 10. -/
def adjustAces : Nat → Nat → Nat
  | v, 0 => v
  | v, a + 1 => if 21 < v then adjustAces (v - 10) a else v

/-- `Hand.calculate_value` from blackjack.py. -/
def calculate_value (cs : List Card) : Nat :=
  adjustAces (tally cs).1 (tally cs).2

/-- `Hand.is_blackjack`: exactly 2 cards totalling 21. -/
def is_blackjack (cs : List Card) : Bool :=
  cs.length == 2 && calculate_value cs == 21

/-- `Hand.is_busted`: total exceeds 21. -/
def is_busted (cs : List Card) : Bool :=
  21 < calculate_value cs

/-- Sum of nominal point values (every ace counted 11). -/
def handBase (cs : List Card) : Nat := (cs.map Card.value).sum

/-- Number of aces in the hand. -/
def numAces (cs : List Card) : Nat :=
  cs.countP (fun c => c.rank = Rank.A)

/-- All 13 ranks, in the order of `RANKS`. -/
def allRanks : List Rank :=
  [.r2, .r3, .r4, .r5, .r6, .r7, .r8, .r9, .r10, .J, .Q, .K, .A]

/-- One standard 52-card deck: for each of the 4 suits, all 13 ranks
(the nested loops of `Deck.reset`). -/
def oneDeck : List Card :=
  ((List.finRange 4).map (fun s => allRanks.map (fun r => Card.mk s r))).flatten

/-- The unshuffled stock of `n` standard decks (the outer loop of
`Deck.reset`). -/
def freshCards : Nat → List Card
  | 0 => []
  | n + 1 => oneDeck ++ freshCards n

/-- The shoe: class `Deck` of blackjack.py (card stock plus configured deck
count). -/
structure Deck where
  cards : List Card
  num_decks : Nat
deriving DecidableEq

/-- `Deck.reset`: regenerate the `num_decks`-deck stock and shuffle it.  The
shuffle is a parameter standing for `random.shuffle`. -/
def Deck.reset (shuffle : List Card → List Card) (d : Deck) : Deck :=
  ⟨shuffle (freshCards d.num_decks), d.num_decks⟩

/-- `Deck.deal`: rebuild when fewer than 10 cards remain, then pop the last
card.  `none` models the `pop from empty list` failure. -/
def Deck.deal (shuffle : List Card → List Card) (d : Deck) :
    Option (Card × Deck) :=
  let d1 := if d.cards.length < 10 then d.reset shuffle else d
  match d1.cards.getLast? with
  | none => none
  | some c => some (c, ⟨d1.cards.dropLast, d1.num_decks⟩)

/-- The hard total of a card: an ace counted as 1, otherwise the nominal
value. -/
def Card.minValue (c : Card) : Nat :=
  if c.rank = Rank.A then 1 else c.value

/-- The hard total of a hand: every ace counted as 1. -/
def minTotal (cs : List Card) : Nat := (cs.map Card.minValue).sum

/-- `BlackjackGame.dealer_turn`: draw while the hand value is below 17.
Terminates because the hard total strictly increases with every card drawn
and bounds the computed value from below; the facts needed for the
termination measure are proved inline (and restated as theorems further
down). -/
def dealer_turn (shuffle : List Card → List Card) (h : List Card) (d : Deck) :
    Option (List Card × Deck) :=
  if hlt : calculate_value h < 17 then
    match Deck.deal shuffle d with
    | none => none
    | some cd => dealer_turn shuffle (h ++ [cd.1]) cd.2
  else some (h, d)
termination_by 17 - minTotal h
decreasing_by
  have hadj : ∀ (v a : Nat), v - 10 * a ≤ adjustAces v a := by
    intro v a
    induction a generalizing v with
    | zero => simp [adjustAces]
    | succ a ih =>
        by_cases h21 : 21 < v
        · rw [adjustAces, if_pos h21]
          have hv := ih (v - 10)
          omega
        · rw [adjustAces, if_neg h21]
          omega
  have htal : ∀ (cs : List Card) (x y : Nat),
      (cs.foldl (fun p c =>
        if c.rank = Rank.A then (p.1 + 11, p.2 + 1)
        else (p.1 + c.value, p.2)) (x, y)).2 =
        y + numAces cs ∧
      minTotal cs + x + 10 * numAces cs ≤
        (cs.foldl (fun p c =>
          if c.rank = Rank.A then (p.1 + 11, p.2 + 1)
          else (p.1 + c.value, p.2)) (x, y)).1 ∧
      (cs.foldl (fun p c =>
          if c.rank = Rank.A then (p.1 + 11, p.2 + 1)
          else (p.1 + c.value, p.2)) (x, y)).1 ≤
        minTotal cs + x + 10 * numAces cs := by
    intro cs
    induction cs with
    | nil => intro x y; simp [minTotal, numAces]
    | cons c cs ih =>
        intro x y
        by_cases hA : c.rank = Rank.A
        · have h1 := ih (x + 11) (y + 1)
          simp only [minTotal, numAces, List.map_cons, List.sum_cons,
            List.countP_cons, List.foldl_cons] at h1 ⊢
          simp [hA, Card.minValue] at h1 ⊢
          omega
        · have h1 := ih (x + c.value) y
          simp only [minTotal, numAces, List.map_cons, List.sum_cons,
            List.countP_cons, List.foldl_cons] at h1 ⊢
          simp [hA, Card.minValue] at h1 ⊢
          omega
  have hmt : minTotal h ≤ calculate_value h := by
    have h1 := htal h 0 0
    have h2 := hadj (tally h).1 (tally h).2
    rw [calculate_value]
    rw [tally] at h2 ⊢
    omega
  have happ : minTotal (h ++ [cd.1]) = minTotal h + cd.1.minValue := by
    simp [minTotal]
  have hone : 1 ≤ cd.1.minValue := by
    rcases cd.1 with ⟨s, r⟩
    cases r <;> simp [Card.minValue, Card.value]
  omega

/-- The commands read in `BlackjackGame.player_turn`. -/
inductive Action
  | hit | stand | double | quit
deriving DecidableEq

/-- Return value of `player_turn`: `True`, `False` or the `-1` quit
sentinel. -/
inductive TurnOutcome
  | ok | busted | aborted
deriving DecidableEq

/-- Player-side mutable state touched by `player_turn`: bankroll, hand and
the wager stored on the hand. -/
structure PTState where
  bankroll : Nat
  hand : List Card
  bet : Nat
deriving DecidableEq

/-- `BlackjackGame.player_turn`, driven by a list of pending commands
(`none` when input is exhausted or a deal fails). -/
def player_turn (shuffle : List Card → List Card) :
    List Action → PTState → Deck → Option (TurnOutcome × PTState × Deck)
  | acts, s, d =>
    if is_busted s.hand then some (.busted, s, d)
    else if calculate_value s.hand == 21 then some (.ok, s, d)
    else
      match acts with
      | [] => none
      | a :: rest =>
        match a with
        | .hit =>
            match Deck.deal shuffle d with
            | none => none
            | some cd =>
                player_turn shuffle rest
                  { s with hand := s.hand ++ [cd.1] } cd.2
        | .stand => some (.ok, s, d)
        | .double =>
            if s.hand.length = 2 ∧ s.bet ≤ s.bankroll then
              match Deck.deal shuffle d with
              | none => none
              | some cd =>
                  let s2 : PTState :=
                    ⟨s.bankroll - s.bet, s.hand ++ [cd.1], 2 * s.bet⟩
                  some (if is_busted s2.hand then .busted else .ok, s2, cd.2)
            else player_turn shuffle rest s d
        | .quit => some (.aborted, s, d)

/-- Counter record `Player.stats`. -/
structure Stats where
  wins : Nat
  losses : Nat
  pushes : Nat
  blackjacks : Nat
deriving DecidableEq

/-- The player-side state read and written by settlement: bankroll and
statistics. -/
structure Ledger where
  bankroll : Nat
  stats : Stats
deriving DecidableEq

/-- `Player.place_bet`: store the wager on the hand and debit the bankroll;
reject amounts above the bankroll or not positive.  The amount is an
arbitrary integer, the bankroll a natural number. -/
def place_bet (amount : Int) (bankroll : Nat) (bet : Nat) :
    Bool × Nat × Nat :=
  if (bankroll : Int) < amount then (false, bankroll, bet)
  else if amount ≤ 0 then (false, bankroll, bet)
  else (true, bankroll - amount.toNat, amount.toNat)

/-- `Player.win` with an explicit amount (every call in `determine_winner`
passes one): credit the amount, count a win, and count a blackjack when the
hand is one. -/
def Player_win (pcs : List Card) (amount : Nat) (L : Ledger) : Ledger :=
  ⟨L.bankroll + amount,
    ⟨L.stats.wins + 1, L.stats.losses, L.stats.pushes,
      if is_blackjack pcs then L.stats.blackjacks + 1 else L.stats.blackjacks⟩⟩

/-- `Player.lose`: count a loss (the wager was already debited). -/
def Player_lose (L : Ledger) : Ledger :=
  ⟨L.bankroll, ⟨L.stats.wins, L.stats.losses + 1, L.stats.pushes,
    L.stats.blackjacks⟩⟩

/-- `Player.push`: return the wager and count a push. -/
def Player_push (bet : Nat) (L : Ledger) : Ledger :=
  ⟨L.bankroll + bet, ⟨L.stats.wins, L.stats.losses, L.stats.pushes + 1,
    L.stats.blackjacks⟩⟩

/-- `BlackjackGame.determine_winner`: settlement precedence exactly as in
the source.  `int(bet * 2.5)` is floor for non-negative wagers, written
`5 * bet / 2`. -/
def determine_winner (pcs dcs : List Card) (bet : Nat) (L : Ledger) :
    Ledger :=
  if is_blackjack pcs && is_blackjack dcs then Player_push bet L
  else if is_blackjack pcs then Player_win pcs (5 * bet / 2) L
  else if is_blackjack dcs then Player_lose L
  else if is_busted pcs then Player_lose L
  else if is_busted dcs then Player_win pcs (bet * 2) L
  else if calculate_value dcs < calculate_value pcs then
    Player_win pcs (bet * 2) L
  else if calculate_value pcs < calculate_value dcs then Player_lose L
  else Player_push bet L

/-- An ace of spades, for concrete scenarios. -/
def cA : Card := ⟨0, .A⟩

/-- A second ace, of a different suit. -/
def cA2 : Card := ⟨1, .A⟩

/-- A king. -/
def cK : Card := ⟨0, .K⟩

/-- A second king, of a different suit. -/
def cK2 : Card := ⟨1, .K⟩

/-- A queen. -/
def cQ : Card := ⟨0, .Q⟩

/-- A nine. -/
def c9 : Card := ⟨0, .r9⟩

/-- A five. -/
def c5 : Card := ⟨0, .r5⟩

/-- A second five, of a different suit. -/
def c52 : Card := ⟨1, .r5⟩

/-- A six. -/
def c6 : Card := ⟨0, .r6⟩

end Blackjack

namespace Roulette

/-- The bet categories of roulette.py (`get_bet_type` values). -/
inductive BetType
  | red | black | zero | even | odd | high | low | dozen1 | dozen2 | dozen3
deriving DecidableEq, Fintype

/-- An active bet: category plus amount. -/
structure RBet where
  ty : BetType
  amount : Nat
deriving DecidableEq

/-- `self.red_numbers` from roulette.py. -/
def red_numbers : List Nat :=
  [1, 3, 5, 7, 9, 12, 14, 16, 18, 19, 21, 23, 25, 27, 30, 32, 34, 36]

/-- Wheel colours. -/
inductive Color
  | red | black | green
deriving DecidableEq

/-- `RouletteGame.get_number_color`. -/
def get_number_color (n : Nat) : Color :=
  if n = 0 then .green
  else if n ∈ red_numbers then .red
  else .black

/-- `RouletteGame.check_win`: the payout multiplier of one bet for a spin
result. -/
def check_win (n : Nat) (b : RBet) : Nat :=
  match b.ty with
  | .red => if get_number_color n = .red then 2 else 0
  | .black => if get_number_color n = .black then 2 else 0
  | .zero => if n = 0 then 36 else 0
  | .even => if n ≠ 0 ∧ n % 2 = 0 then 2 else 0
  | .odd => if n % 2 = 1 then 2 else 0
  | .high => if 19 ≤ n then 2 else 0
  | .low => if 1 ≤ n ∧ n ≤ 18 then 2 else 0
  | .dozen1 => if 1 ≤ n ∧ n ≤ 12 then 3 else 0
  | .dozen2 => if 13 ≤ n ∧ n ≤ 24 then 3 else 0
  | .dozen3 => if 25 ≤ n ∧ n ≤ 36 then 3 else 0

/-- Session state of the wheel game: bankroll and active bets. -/
structure RState where
  bankroll : Nat
  bets : List RBet
deriving DecidableEq

/-- The winnings accumulation loop of `RouletteGame.spin`: add
`amount * multiplier` for each bet whose multiplier is positive. -/
def spinTotalWin (result : Nat) (bets : List RBet) : Nat :=
  bets.foldl
    (fun acc b =>
      if 0 < check_win result b then acc + b.amount * check_win result b
      else acc)
    0

/-- The settlement part of `RouletteGame.spin` for a given result: credit
the accumulated winnings in one step when positive, then clear the bet
list (crediting 0 is the identity, as in the source's guarded credit). -/
def spinSettle (result : Nat) (s : RState) : RState :=
  ⟨if 0 < spinTotalWin result s.bets then
      s.bankroll + spinTotalWin result s.bets
    else s.bankroll, []⟩

/-- Claim-side category table, written from the spec's words: multiplier 2
when the category matches the result (red/black by the standard colouring
with 0 neither red nor black; even/odd excluding 0; high 19-36; low 1-18),
3 for a matched dozen, 36 for a zero bet on result 0, and 0 otherwise. -/
def specMultiplier (n : Nat) (t : BetType) : Nat :=
  match t with
  | .red => if n ∈ red_numbers then 2 else 0
  | .black => if n ≠ 0 ∧ n ∉ red_numbers then 2 else 0
  | .zero => if n = 0 then 36 else 0
  | .even => if n ≠ 0 ∧ n % 2 = 0 then 2 else 0
  | .odd => if n ≠ 0 ∧ n % 2 = 1 then 2 else 0
  | .high => if 19 ≤ n ∧ n ≤ 36 then 2 else 0
  | .low => if 1 ≤ n ∧ n ≤ 18 then 2 else 0
  | .dozen1 => if 1 ≤ n ∧ n ≤ 12 then 3 else 0
  | .dozen2 => if 13 ≤ n ∧ n ≤ 24 then 3 else 0
  | .dozen3 => if 25 ≤ n ∧ n ≤ 36 then 3 else 0

end Roulette

namespace Blackjack

theorem tally_go (cs : List Card) (x y : Nat) :
    cs.foldl
      (fun p c =>
        if c.rank = Rank.A then (p.1 + 11, p.2 + 1) else (p.1 + c.value, p.2))
      (x, y) = (x + handBase cs, y + numAces cs) := by
  induction cs generalizing x y with
  | nil => simp [handBase, numAces]
  | cons c cs ih =>
      by_cases h : c.rank = Rank.A
      · have hv : c.value = 11 := by simp [Card.value, h]
        simp only [List.foldl_cons, h, if_pos, ih, handBase, numAces,
          List.map_cons, List.sum_cons, List.countP_cons, hv, Prod.ext_iff]
        simp [h]
        omega
      · simp only [List.foldl_cons, h, if_neg, ih, handBase, numAces,
          List.map_cons, List.sum_cons, List.countP_cons, Prod.ext_iff]
        simp [h]
        omega

theorem tally_eq (cs : List Card) : tally cs = (handBase cs, numAces cs) := by
  have h := tally_go cs 0 0
  simpa [tally] using h

theorem calculate_value_eq (cs : List Card) :
    calculate_value cs = adjustAces (handBase cs) (numAces cs) := by
  rw [calculate_value, tally_eq]

/-- The adjusted value is always of the form `base - 10 * j` with `j` at most
the number of aces. -/
theorem adjustAces_exists (v a : Nat) :
    ∃ j, j ≤ a ∧ adjustAces v a = v - 10 * j := by
  induction a generalizing v with
  | zero => exact ⟨0, le_refl 0, by simp [adjustAces]⟩
  | succ a ih =>
      by_cases h : 21 < v
      · obtain ⟨j, hj, hval⟩ := ih (v - 10)
        refine ⟨j + 1, by omega, ?_⟩
        rw [adjustAces, if_pos h, hval]
        omega
      · exact ⟨0, Nat.zero_le _, by rw [adjustAces, if_neg h]; simp⟩

/-- Maximality: any downgrade choice that stays at or below 21 is at most the
adjusted value. -/
theorem adjustAces_max (v a : Nat) :
    ∀ j, j ≤ a → v - 10 * j ≤ 21 → v - 10 * j ≤ adjustAces v a := by
  induction a generalizing v with
  | zero =>
      intro j hj _
      interval_cases j
      simp [adjustAces]
  | succ a ih =>
      intro j hj hle
      by_cases h : 21 < v
      · rw [adjustAces, if_pos h]
        match j with
        | 0 => omega
        | j + 1 =>
            have h1 : v - 10 * (j + 1) = (v - 10) - 10 * j := by omega
            rw [h1] at hle ⊢
            exact ih (v - 10) j (by omega) hle
      · rw [adjustAces, if_neg h]
        omega

/-- In the bust case every ace has been downgraded. -/
theorem adjustAces_bust (v a : Nat) :
    21 < adjustAces v a → adjustAces v a = v - 10 * a := by
  induction a generalizing v with
  | zero => intro _; simp [adjustAces]
  | succ a ih =>
      intro hgt
      by_cases h : 21 < v
      · rw [adjustAces, if_pos h] at hgt ⊢
        rw [ih (v - 10) hgt]
        omega
      · rw [adjustAces, if_neg h] at hgt
        omega

theorem oneDeck_length : oneDeck.length = 52 := by decide

theorem freshCards_length (n : Nat) : (freshCards n).length = n * 52 := by
  induction n with
  | zero => simp [freshCards]
  | succ n ih =>
      rw [freshCards, List.length_append, ih, oneDeck_length]
      ring

/-- Key case analysis for `Deck.deal`: when it returns, either no rebuild
took place (at least 10 cards were present, one is removed) or the stock was
rebuilt to `num_decks * 52` cards and one removed. -/
theorem deal_cases (shuffle : List Card → List Card)
    (hs : ∀ l, List.Perm (shuffle l) l) (d : Deck) (c : Card) (d2 : Deck)
    (h : d.deal shuffle = some (c, d2)) :
    d2.num_decks = d.num_decks ∧
      ((10 ≤ d.cards.length ∧ d2.cards.length = d.cards.length - 1) ∨
        (d.cards.length < 10 ∧ d2.cards.length = d.num_decks * 52 - 1)) := by
  rw [Deck.deal] at h
  by_cases hlen : d.cards.length < 10
  · simp only [hlen, if_pos] at h
    match hget : (d.reset shuffle).cards.getLast? with
    | none => rw [hget] at h; exact absurd h (by simp)
    | some c0 =>
        rw [hget] at h
        simp only [Option.some.injEq, Prod.mk.injEq] at h
        obtain ⟨hc, hd⟩ := h
        have hlen2 : (d.reset shuffle).cards.length = d.num_decks * 52 := by
          rw [Deck.reset]
          rw [(hs (freshCards d.num_decks)).length_eq, freshCards_length]
        refine ⟨by rw [← hd]; simp [Deck.reset], Or.inr ⟨hlen, ?_⟩⟩
        rw [← hd]
        simp only [List.length_dropLast, hlen2]
  · simp only [hlen, if_neg, if_false] at h
    match hget : d.cards.getLast? with
    | none => rw [hget] at h; exact absurd h (by simp)
    | some c0 =>
        rw [hget] at h
        simp only [Option.some.injEq, Prod.mk.injEq] at h
        obtain ⟨hc, hd⟩ := h
        refine ⟨by rw [← hd], Or.inl ⟨by omega, ?_⟩⟩
        rw [← hd]
        simp [List.length_dropLast]

/-- `Deck.deal` succeeds whenever at least one deck is configured. -/
theorem deal_total (shuffle : List Card → List Card)
    (hs : ∀ l, List.Perm (shuffle l) l) (d : Deck) (hn : 1 ≤ d.num_decks) :
    ∃ c d2, d.deal shuffle = some (c, d2) := by
  rw [Deck.deal]
  by_cases hlen : d.cards.length < 10
  · simp only [hlen, if_pos]
    have hlen2 : (d.reset shuffle).cards.length = d.num_decks * 52 := by
      rw [Deck.reset]
      rw [(hs (freshCards d.num_decks)).length_eq, freshCards_length]
    have hne : (d.reset shuffle).cards ≠ [] := by
      intro hnil
      rw [hnil] at hlen2
      simp at hlen2
      omega
    obtain ⟨c0, hc0⟩ := Option.ne_none_iff_exists'.mp
      (mt List.getLast?_eq_none_iff.mp hne)
    rw [hc0]
    exact ⟨c0, _, rfl⟩
  · simp only [hlen, if_neg, if_false]
    have hne : d.cards ≠ [] := by
      intro hnil
      rw [hnil] at hlen
      simp at hlen
    obtain ⟨c0, hc0⟩ := Option.ne_none_iff_exists'.mp
      (mt List.getLast?_eq_none_iff.mp hne)
    rw [hc0]
    exact ⟨c0, _, rfl⟩

theorem one_le_minValue (c : Card) : 1 ≤ c.minValue := by
  rcases c with ⟨s, r⟩
  cases r <;> simp [Card.minValue, Card.value]

theorem handBase_eq (cs : List Card) :
    handBase cs = minTotal cs + 10 * numAces cs := by
  induction cs with
  | nil => simp [handBase, minTotal, numAces]
  | cons c cs ih =>
      by_cases h : c.rank = Rank.A
      · have hv : c.value = 11 := by simp [Card.value, h]
        simp only [handBase, minTotal, numAces, List.map_cons, List.sum_cons,
          List.countP_cons] at ih ⊢
        simp [h, hv, Card.minValue, ih]
        omega
      · simp only [handBase, minTotal, numAces, List.map_cons, List.sum_cons,
          List.countP_cons] at ih ⊢
        simp [h, Card.minValue, ih]
        omega

theorem minTotal_append (cs : List Card) (c : Card) :
    minTotal (cs ++ [c]) = minTotal cs + c.minValue := by
  simp [minTotal]

/-- The hard total is a lower bound on the computed hand value. -/
theorem minTotal_le_calculate_value (cs : List Card) :
    minTotal cs ≤ calculate_value cs := by
  obtain ⟨j, hj, hval⟩ := adjustAces_exists (handBase cs) (numAces cs)
  rw [calculate_value_eq, hval, handBase_eq]
  omega

/-- Characterisation of a completed dealer turn: the final hand extends the
initial one, its value is at least 17, and each draw happened while the
then-current value was below 17. -/
theorem dealer_turn_spec_aux (shuffle : List Card → List Card) :
    ∀ (n : Nat) (h : List Card) (d : Deck), 17 - minTotal h ≤ n →
      ∀ final d2, dealer_turn shuffle h d = some (final, d2) →
        ∃ drawn, final = h ++ drawn ∧ 17 ≤ calculate_value final ∧
          ∀ i, i < drawn.length → calculate_value (h ++ drawn.take i) < 17 := by
  intro n
  induction n with
  | zero =>
      intro h d hm final d2 hres
      have hge : 17 ≤ calculate_value h :=
        le_trans (by omega) (minTotal_le_calculate_value h)
      rw [dealer_turn, dif_neg (by omega)] at hres
      simp only [Option.some.injEq, Prod.mk.injEq] at hres
      exact ⟨[], by simp [← hres.1], by rw [← hres.1]; exact hge,
        fun i hi => absurd hi (by simp)⟩
  | succ n ih =>
      intro h d hm final d2 hres
      by_cases hlt : calculate_value h < 17
      · rw [dealer_turn, dif_pos hlt] at hres
        match hdeal : Deck.deal shuffle d with
        | none => rw [hdeal] at hres; cases hres
        | some cd =>
            rw [hdeal] at hres
            have hm2 : 17 - minTotal (h ++ [cd.1]) ≤ n := by
              have h1 := minTotal_le_calculate_value h
              have h2 := minTotal_append h cd.1
              have h3 := one_le_minValue cd.1
              omega
            obtain ⟨drawn, h1, h2, h3⟩ := ih (h ++ [cd.1]) cd.2 hm2 final d2 hres
            refine ⟨cd.1 :: drawn, by rw [h1]; simp, h2, ?_⟩
            intro i hi
            match i with
            | 0 => simpa using hlt
            | i + 1 =>
                have h4 := h3 i (by simp at hi; omega)
                have heq : h ++ (cd.1 :: drawn).take (i + 1) =
                    (h ++ [cd.1]) ++ drawn.take i := by
                  simp
                rw [heq]
                exact h4
      · rw [dealer_turn, dif_neg hlt] at hres
        simp only [Option.some.injEq, Prod.mk.injEq] at hres
        exact ⟨[], by simp [← hres.1], by rw [← hres.1]; omega,
          fun i hi => absurd hi (by simp)⟩

/-- The dealer turn always completes when at least one deck is configured. -/
theorem dealer_turn_total_aux (shuffle : List Card → List Card)
    (hs : ∀ l, List.Perm (shuffle l) l) :
    ∀ (n : Nat) (h : List Card) (d : Deck), 17 - minTotal h ≤ n →
      1 ≤ d.num_decks →
      ∃ final d2, dealer_turn shuffle h d = some (final, d2) := by
  intro n
  induction n with
  | zero =>
      intro h d hm hn
      have hge : 17 ≤ calculate_value h :=
        le_trans (by omega) (minTotal_le_calculate_value h)
      rw [dealer_turn, dif_neg (by omega)]
      exact ⟨h, d, rfl⟩
  | succ n ih =>
      intro h d hm hn
      by_cases hlt : calculate_value h < 17
      · rw [dealer_turn, dif_pos hlt]
        obtain ⟨c, d2, hdeal⟩ := deal_total shuffle hs d hn
        rw [hdeal]
        have hnd := (deal_cases shuffle hs d c d2 hdeal).1
        have hm2 : 17 - minTotal (h ++ [c]) ≤ n := by
          have h1 := minTotal_le_calculate_value h
          have h2 := minTotal_append h c
          have h3 := one_le_minValue c
          omega
        exact ih (h ++ [c]) d2 hm2 (by omega)
      · rw [dealer_turn, dif_neg hlt]
        exact ⟨h, d, rfl⟩

/-- Claim C2: `calculate_value` computes the ace-adjustment algorithm (sum
with every ace as 11, then subtract 10 while over 21 and an un-downgraded
ace remains), which equals the maximal total at most 21 achievable counting
some aces as 1, or the minimal bust total otherwise; including the five
concrete example hands. -/
theorem claim_C2 (cs : List Card) :
    calculate_value cs = adjustAces (handBase cs) (numAces cs) ∧
    (∃ j, j ≤ numAces cs ∧ calculate_value cs = handBase cs - 10 * j) ∧
    (∀ j, j ≤ numAces cs → handBase cs - 10 * j ≤ 21 →
      handBase cs - 10 * j ≤ calculate_value cs) ∧
    (21 < calculate_value cs →
      calculate_value cs = handBase cs - 10 * numAces cs ∧
        ∀ j, j ≤ numAces cs → calculate_value cs ≤ handBase cs - 10 * j) ∧
    calculate_value [cA, cA2] = 12 ∧
    calculate_value [cA, cK] = 21 ∧
    calculate_value [cA, cA2, c9] = 21 ∧
    calculate_value [c5, c52, cQ] = 20 ∧
    calculate_value [cK, cQ, c5] = 25 := by
  refine ⟨calculate_value_eq cs, ?_, ?_, ?_,
    by decide, by decide, by decide, by decide, by decide⟩
  · obtain ⟨j, hj, hval⟩ := adjustAces_exists (handBase cs) (numAces cs)
    exact ⟨j, hj, by rw [calculate_value_eq]; exact hval⟩
  · intro j hj hle
    rw [calculate_value_eq]
    exact adjustAces_max _ _ j hj hle
  · intro hgt
    rw [calculate_value_eq] at hgt ⊢
    refine ⟨adjustAces_bust _ _ hgt, ?_⟩
    intro j hj
    rw [adjustAces_bust _ _ hgt]
    have h10 : 10 * j ≤ 10 * numAces cs := by omega
    omega

/-- Claim C8: the hand value depends only on the multiset of cards held, not
on their order. -/
theorem claim_C8 (l1 l2 : List Card) (hp : List.Perm l1 l2) :
    calculate_value l1 = calculate_value l2 := by
  have h1 : handBase l1 = handBase l2 := by
    rw [handBase, handBase]
    exact (hp.map Card.value).sum_eq
  have h2 : numAces l1 = numAces l2 := by
    rw [numAces, numAces]
    exact hp.countP_eq _
  rw [calculate_value_eq, calculate_value_eq, h1, h2]

/-- Witness for C8: the concrete permutation of an ace-king hand. -/
theorem claim_C8_witness :
    List.Perm [cA, cK] [cK, cA] ∧
      calculate_value [cA, cK] = calculate_value [cK, cA] :=
  ⟨List.Perm.swap cK cA [], claim_C8 _ _ (List.Perm.swap cK cA [])⟩

/-- Claim C5: `place_bet` succeeds exactly for integer amounts in
[1, bankroll]; on success the bankroll drops by the amount and the wager is
set to it; on rejection both are unchanged. -/
theorem claim_C5 (amount : Int) (bankroll bet : Nat) :
    ((place_bet amount bankroll bet).1 = true ↔
      1 ≤ amount ∧ amount ≤ (bankroll : Int)) ∧
    ((place_bet amount bankroll bet).1 = true →
      ((place_bet amount bankroll bet).2.1 : Int) = (bankroll : Int) - amount ∧
        ((place_bet amount bankroll bet).2.2 : Int) = amount) ∧
    ((place_bet amount bankroll bet).1 = false →
      (place_bet amount bankroll bet).2.1 = bankroll ∧
        (place_bet amount bankroll bet).2.2 = bet) := by
  rw [place_bet]
  by_cases h1 : (bankroll : Int) < amount
  · simp only [h1, if_pos]
    simp
    omega
  · by_cases h2 : amount ≤ 0
    · simp only [h1, if_neg, if_false, h2, if_pos]
      simp
      omega
    · simp only [h1, h2, if_neg, if_false]
      simp
      omega

/-- Witness for C5: the concrete bet of 100 from bankroll 500. -/
theorem claim_C5_witness :
    (place_bet 100 500 0).1 = true ∧
      ((place_bet 100 500 0).2.1 : Int) = (500 : Int) - 100 ∧
      ((place_bet 100 500 0).2.2 : Int) = 100 :=
  ⟨by decide, (claim_C5 100 500 0).2.1 (by decide)⟩

/-- Counterexample to C1 as stated: with wager 5, a player blackjack against
a non-blackjack dealer credits `int(5 * 2.5) = 12`, not the claimed exact
2.5 times the wager (12.5). -/
theorem claim_C1_counterexample :
    determine_winner [cA, cK] [c9, cK2] 5 ⟨100, ⟨0, 0, 0, 0⟩⟩ =
      ⟨112, ⟨1, 0, 0, 1⟩⟩ ∧
    ¬((112 : ℚ) - 100 = (2.5 : ℚ) * 5) := by
  constructor
  · decide
  · norm_num

/-- Claim C1 (amended): for a settled round with a player blackjack and no
dealer blackjack, settlement credits a total return of `int(2.5 * wager)`,
the floor of 2.5 times the wager (exactly 2.5 times for even wagers), and
increments both the win and the blackjack counter; this branch fires before
the generic higher-total comparison. -/
theorem claim_C1 (pcs dcs : List Card) (bet : Nat) (L : Ledger)
    (hp : is_blackjack pcs = true) (hd : is_blackjack dcs = false) :
    determine_winner pcs dcs bet L =
      ⟨L.bankroll + 5 * bet / 2,
        ⟨L.stats.wins + 1, L.stats.losses, L.stats.pushes,
          L.stats.blackjacks + 1⟩⟩ := by
  rw [determine_winner]
  simp [hp, hd, Player_win]

/-- Witness for C1 at the claim's precedence scenario: player {A,K} against
dealer {9,K}, wager 100, gets the blackjack return 250, not the generic 200. -/
theorem claim_C1_witness :
    is_blackjack [cA, cK] = true ∧ is_blackjack [c9, cK2] = false ∧
      determine_winner [cA, cK] [c9, cK2] 100 ⟨400, ⟨0, 0, 0, 0⟩⟩ =
        ⟨400 + 5 * 100 / 2, ⟨0 + 1, 0, 0, 0 + 1⟩⟩ ∧
      (5 : Nat) * 100 / 2 = 250 :=
  ⟨by decide, by decide,
    claim_C1 [cA, cK] [c9, cK2] 100 ⟨400, ⟨0, 0, 0, 0⟩⟩ (by decide) (by decide),
    by decide⟩

/-- Counterexample to C3 as stated: a shoe of exactly 10 cards (one
configured deck) satisfies neither disjunct after a draw — 9 cards remain,
which is below 10, and no rebuild occurred (9 is not 1*52 - 1). -/
theorem claim_C3_counterexample :
    Deck.deal id ⟨oneDeck.take 10, 1⟩ =
      some (⟨0, Rank.J⟩, ⟨oneDeck.take 9, 1⟩) ∧
    (oneDeck.take 9).length = 9 ∧
    ¬(10 ≤ (9 : Nat) ∨ (9 : Nat) = 1 * 52 - 1) := by
  refine ⟨by decide, by decide, by decide⟩

/-- Claim C3 (amended): after any single completed `draw()`, either no
rebuild occurred — which happens exactly when at least 10 cards were present
before the call — and the remaining size is the previous size minus one
(hence at least 9), or a rebuild occurred during the call leaving exactly
`N*52` cards minus the card just drawn. -/
theorem claim_C3 (shuffle : List Card → List Card)
    (hs : ∀ l, List.Perm (shuffle l) l) (d : Deck) (c : Card) (d2 : Deck)
    (h : d.deal shuffle = some (c, d2)) :
    (10 ≤ d.cards.length ∧ d2.cards.length = d.cards.length - 1 ∧
        9 ≤ d2.cards.length) ∨
      (d.cards.length < 10 ∧ d2.cards.length = d.num_decks * 52 - 1) := by
  rcases (deal_cases shuffle hs d c d2 h).2 with ⟨h1, h2⟩ | ⟨h1, h2⟩
  · exact Or.inl ⟨h1, h2, by omega⟩
  · exact Or.inr ⟨h1, h2⟩

/-- Witness for C3 at a full single-deck shoe: the top card is dealt and 51
cards remain. -/
theorem claim_C3_witness :
    Deck.deal id ⟨oneDeck, 1⟩ = some (⟨3, Rank.A⟩, ⟨oneDeck.dropLast, 1⟩) ∧
      ((10 ≤ oneDeck.length ∧
          oneDeck.dropLast.length = oneDeck.length - 1 ∧
          9 ≤ oneDeck.dropLast.length) ∨
        (oneDeck.length < 10 ∧ oneDeck.dropLast.length = 1 * 52 - 1)) :=
  ⟨by decide,
    claim_C3 id (fun l => List.Perm.refl l) ⟨oneDeck, 1⟩ ⟨3, Rank.A⟩
      ⟨oneDeck.dropLast, 1⟩ (by decide)⟩

/-- Claim C9: with at least one configured deck, `draw()` succeeds from every
shoe state (the pop never operates on an empty stock) and leaves at least 9
cards. -/
theorem claim_C9 (shuffle : List Card → List Card)
    (hs : ∀ l, List.Perm (shuffle l) l) (d : Deck) (hn : 1 ≤ d.num_decks) :
    ∃ c d2, d.deal shuffle = some (c, d2) ∧ 9 ≤ d2.cards.length := by
  obtain ⟨c, d2, hdeal⟩ := deal_total shuffle hs d hn
  refine ⟨c, d2, hdeal, ?_⟩
  rcases (deal_cases shuffle hs d c d2 hdeal).2 with ⟨h1, h2⟩ | ⟨h1, h2⟩
  · omega
  · have : 52 ≤ d.num_decks * 52 := by
      calc 52 = 1 * 52 := by ring
      _ ≤ d.num_decks * 52 := by
        exact Nat.mul_le_mul_right 52 hn
    omega

/-- Witness for C9 at an empty single-deck shoe: the rebuild restores 52
cards before the pop. -/
theorem claim_C9_witness :
    (∀ l : List Card, List.Perm (id l) l) ∧ 1 ≤ (1 : Nat) ∧
      ∃ c d2, Deck.deal id ⟨[], 1⟩ = some (c, d2) ∧ 9 ≤ d2.cards.length :=
  ⟨fun l => List.Perm.refl l, le_refl 1,
    claim_C9 id (fun l => List.Perm.refl l) ⟨[], 1⟩ (le_refl 1)⟩

/-- Claim C4: double down is accepted exactly when the hand holds 2 cards
and the bankroll covers the wager; when accepted it debits the bankroll by
the wager, doubles the stored wager, draws exactly one card, and ends the
turn immediately whatever commands remain (a doubled hand never draws
again); otherwise the command is rejected with no state change. -/
theorem claim_C4 (shuffle : List Card → List Card) (s : PTState) (d : Deck)
    (rest : List Action) (hv : calculate_value s.hand < 21) :
    (∀ c d2, Deck.deal shuffle d = some (c, d2) →
      s.hand.length = 2 → s.bet ≤ s.bankroll →
      player_turn shuffle (Action.double :: rest) s d =
        some (if is_busted (s.hand ++ [c]) then .busted else .ok,
          ⟨s.bankroll - s.bet, s.hand ++ [c], 2 * s.bet⟩, d2) ∧
      (s.hand ++ [c]).length = s.hand.length + 1) ∧
    (¬(s.hand.length = 2 ∧ s.bet ≤ s.bankroll) →
      player_turn shuffle (Action.double :: rest) s d =
        player_turn shuffle rest s d) := by
  have hnb : is_busted s.hand = false := by
    rw [is_busted]
    simp
    omega
  have h21 : (calculate_value s.hand == 21) = false := by
    simp
    omega
  constructor
  · intro c d2 hdeal h2 hbk
    refine ⟨?_, by simp⟩
    rw [player_turn]
    simp only [hnb, h21, Bool.false_eq_true, if_false]
    rw [if_pos ⟨h2, hbk⟩, hdeal]
  · intro hno
    rw [player_turn]
    simp only [hnb, h21, Bool.false_eq_true, if_false]
    rw [if_neg hno]

/-- Witness for C4: wager 100 with bankroll 400 after the debit of the
original bet from 500, a 5-6 hand, and a shoe of ten nines. -/
theorem claim_C4_witness :
    calculate_value [c5, c6] < 21 ∧
      Deck.deal id ⟨List.replicate 10 c9, 1⟩ =
        some (c9, ⟨List.replicate 9 c9, 1⟩) ∧
      ([c5, c6] : List Card).length = 2 ∧ (100 : Nat) ≤ 400 ∧
      player_turn id [Action.double] ⟨400, [c5, c6], 100⟩
          ⟨List.replicate 10 c9, 1⟩ =
        some (if is_busted ([c5, c6] ++ [c9]) then .busted else .ok,
          ⟨400 - 100, [c5, c6] ++ [c9], 2 * 100⟩,
          ⟨List.replicate 9 c9, 1⟩) ∧
      (([c5, c6] : List Card) ++ [c9]).length = ([c5, c6] : List Card).length + 1 :=
  ⟨by decide, by decide, by decide, by decide,
    (claim_C4 id ⟨400, [c5, c6], 100⟩ ⟨List.replicate 10 c9, 1⟩ []
        (by decide)).1
      c9 ⟨List.replicate 9 c9, 1⟩ (by decide) (by decide) (by decide)⟩

/-- Claim C6: a completed dealer turn drew a card exactly while the current
total was strictly below 17 and stopped at the first total of 17 or more. -/
theorem claim_C6 (shuffle : List Card → List Card) (h : List Card) (d : Deck)
    (final : List Card) (d2 : Deck)
    (hres : dealer_turn shuffle h d = some (final, d2)) :
    ∃ drawn, final = h ++ drawn ∧ 17 ≤ calculate_value final ∧
      ∀ i, i < drawn.length → calculate_value (h ++ drawn.take i) < 17 :=
  dealer_turn_spec_aux shuffle (17 - minTotal h) h d (le_refl _) final d2 hres

/-- Witness for C6: a dealer 16 draws exactly one five and stands on 21. -/
theorem claim_C6_witness :
    dealer_turn id [cK, c6] ⟨List.replicate 10 c5, 1⟩ =
        some ([cK, c6, c5], ⟨List.replicate 9 c5, 1⟩) ∧
      ∃ drawn, ([cK, c6, c5] : List Card) = [cK, c6] ++ drawn ∧
        17 ≤ calculate_value [cK, c6, c5] ∧
        ∀ i, i < drawn.length →
          calculate_value ([cK, c6] ++ drawn.take i) < 17 := by
  have hstep : dealer_turn id [cK, c6] ⟨List.replicate 10 c5, 1⟩ =
      some ([cK, c6, c5], ⟨List.replicate 9 c5, 1⟩) := by
    rw [dealer_turn, dif_pos (by decide)]
    have hdeal : Deck.deal id ⟨List.replicate 10 c5, 1⟩ =
        some (c5, ⟨List.replicate 9 c5, 1⟩) := by decide
    rw [hdeal]
    show dealer_turn id [cK, c6, c5] ⟨List.replicate 9 c5, 1⟩ = _
    rw [dealer_turn, dif_neg (by decide)]
  exact ⟨hstep, claim_C6 id [cK, c6] ⟨List.replicate 10 c5, 1⟩ _ _ hstep⟩

/-- Claim C10: the dealer drawing loop terminates for every initial hand and
shoe with at least one configured deck, because the all-aces-as-1 hard total
strictly increases with every drawn card and bounds the computed value from
below. -/
theorem claim_C10 (shuffle : List Card → List Card)
    (hs : ∀ l, List.Perm (shuffle l) l) (h : List Card) (d : Deck)
    (hn : 1 ≤ d.num_decks) :
    (∃ final d2, dealer_turn shuffle h d = some (final, d2)) ∧
      (∀ (cs : List Card) (c : Card), minTotal cs < minTotal (cs ++ [c])) ∧
      (∀ cs : List Card, minTotal cs ≤ calculate_value cs) := by
  refine ⟨dealer_turn_total_aux shuffle hs (17 - minTotal h) h d
    (le_refl _) hn, ?_, minTotal_le_calculate_value⟩
  intro cs c
  have h1 := minTotal_append cs c
  have h2 := one_le_minValue c
  omega

/-- Witness for C10: the loop completes from an empty dealer hand and an
empty single-deck shoe. -/
theorem claim_C10_witness :
    (∀ l : List Card, List.Perm (id l) l) ∧ 1 ≤ (1 : Nat) ∧
      ∃ final d2, dealer_turn id [] ⟨[], 1⟩ = some (final, d2) :=
  ⟨fun l => List.Perm.refl l, le_refl 1,
    (claim_C10 id (fun l => List.Perm.refl l) [] ⟨[], 1⟩ (le_refl 1)).1⟩

end Blackjack

namespace Roulette

theorem spinTotalWin_go (result : Nat) (bets : List RBet) (acc : Nat) :
    bets.foldl
      (fun acc b =>
        if 0 < check_win result b then acc + b.amount * check_win result b
        else acc) acc =
      acc + (bets.map fun b => b.amount * check_win result b).sum := by
  induction bets generalizing acc with
  | nil => simp
  | cons b bs ih =>
      simp only [List.foldl_cons, List.map_cons, List.sum_cons]
      by_cases h : 0 < check_win result b
      · rw [if_pos h, ih]
        omega
      · rw [if_neg h, ih]
        have h0 : check_win result b = 0 := by omega
        rw [h0]
        simp

theorem spinTotalWin_eq (result : Nat) (bets : List RBet) :
    spinTotalWin result bets =
      (bets.map fun b => b.amount * check_win result b).sum := by
  rw [spinTotalWin]
  simpa using spinTotalWin_go result bets 0

theorem check_win_amount (n : Nat) (t : BetType) (a : Nat) :
    check_win n ⟨t, a⟩ = check_win n ⟨t, 0⟩ := by
  cases t <;> rfl

theorem check_win_spec_table :
    ∀ (r : Fin 37) (t : BetType),
      check_win r.val ⟨t, 0⟩ = specMultiplier r.val t := by
  decide

/-- Claim C7: each bet resolves independently by the fixed category table
(2 for a matched red/black/even/odd/high/low with the standard colouring and
0 excluded from even/odd, 3 for a matched dozen, 36 for a zero bet on 0, and
0 otherwise); the summed winnings are credited in one step and the bet list
is empty afterwards; with the two concrete payout scenarios. -/
theorem claim_C7 :
    (∀ (r : Fin 37) (b : RBet),
      check_win r.val b = specMultiplier r.val b.ty) ∧
    (∀ (result : Nat) (s : RState),
      (spinSettle result s).bets = [] ∧
      (spinSettle result s).bankroll =
        s.bankroll + (s.bets.map fun b => b.amount * check_win result b).sum) ∧
    (spinSettle 1 ⟨950, [⟨.red, 50⟩]⟩).bankroll = 950 + 100 ∧
    (spinSettle 0 ⟨990, [⟨.zero, 10⟩]⟩).bankroll = 990 + 360 := by
  refine ⟨?_, ?_, by decide, by decide⟩
  · intro r b
    rcases b with ⟨t, a⟩
    rw [check_win_amount]
    exact check_win_spec_table r t
  · intro result s
    refine ⟨rfl, ?_⟩
    simp only [spinSettle, spinTotalWin_eq]
    split
    · rfl
    · next h => omega

end Roulette
